import Mathlib

/-!
Verification of the binary search tree from
`learning_go/examples/binaryTree/main.go` (`IntTree`, `Insert`, `Contains`).

The Go type is

  type IntTree struct {
      left, right *IntTree
      val         int
  }

with a `nil` pointer standing for the empty tree.  We embed it three ways:

* `IntTree`, `IntTree.insert`, `IntTree.contains`: the value-level semantics
  of the Go methods as pure recursive functions on an inductive tree
  (the `nil` receiver becomes the `nil` constructor);
* `IntTree.insertFuel`, `IntTree.containsFuel`: the same recursion with an
  explicit step budget, used to state termination/totality;
* `HNode`, `insertH`: a heap-level model in which nodes live at indices of a
  list and `Insert`'s pointer mutations (`it.left = ...`, `it.right = ...`)
  are explicit updates, used to state the allocation and node-identity
  claims.
-/

inductive IntTree where
  | nil : IntTree
  | node : IntTree → Int → IntTree → IntTree
deriving DecidableEq, Repr

namespace IntTree

/-- `func (it *IntTree) Insert(val int) *IntTree`.  A `nil` receiver returns a
fresh single node; otherwise the matching child is rebound and the same root
returned.  The `val == it.val` case falls through and returns `it` unchanged. -/
def insert : IntTree → Int → IntTree
  | .nil, v => .node .nil v .nil
  | .node l x r, v =>
    if v < x then .node (insert l v) x r
    else if x < v then .node l x (insert r v)
    else .node l x r

/-- `func (it *IntTree) Contains(val int) bool`: false on `nil`, recurse left
on smaller, right on larger, true on equal. -/
def contains : IntTree → Int → Bool
  | .nil, _ => false
  | .node l x r, v =>
    if v < x then contains l v
    else if x < v then contains r v
    else true

/-- Inserting a whole sequence, leftmost value first (as a caller looping
`it = it.Insert(v)` would). -/
def insertAll (t : IntTree) (vs : List Int) : IntTree :=
  vs.foldl insert t

/-- In-order traversal: left subtree, node value, right subtree. -/
def inorder : IntTree → List Int
  | .nil => []
  | .node l x r => inorder l ++ x :: inorder r

/-- Number of nodes. -/
def size : IntTree → Nat
  | .nil => 0
  | .node l _ r => size l + size r + 1

/-- Height: length of the longest root-to-leaf chain of nodes. -/
def height : IntTree → Nat
  | .nil => 0
  | .node l _ r => 1 + max (height l) (height r)

/-- Every node's left child is empty: a degenerate right-leaning chain. -/
def isRightChain : IntTree → Bool
  | .nil => true
  | .node .nil _ r => isRightChain r
  | .node _ _ _ => false

/-- The binary-search-tree ordering invariant, at every node. -/
inductive BST : IntTree → Prop where
  | nil : BST .nil
  | node : ∀ {l r : IntTree} {x : Int},
      (∀ y ∈ inorder l, y < x) →
      (∀ y ∈ inorder r, x < y) →
      BST l → BST r → BST (.node l x r)

/-- `Contains` with an explicit step budget; `none` means the budget ran out. -/
def containsFuel : Nat → IntTree → Int → Option Bool
  | 0, _, _ => none
  | _ + 1, .nil, _ => some false
  | f + 1, .node l x r, v =>
    if v < x then containsFuel f l v
    else if x < v then containsFuel f r v
    else some true

/-- `Insert` with an explicit step budget; `none` means the budget ran out. -/
def insertFuel : Nat → IntTree → Int → Option IntTree
  | 0, _, _ => none
  | _ + 1, .nil, v => some (.node .nil v .nil)
  | f + 1, .node l x r, v =>
    if v < x then (insertFuel f l v).map fun l' => .node l' x r
    else if x < v then (insertFuel f r v).map fun r' => .node l x r'
    else some (.node l x r)

end IntTree

/-- A heap cell for the pointer-level model of `IntTree`: the `left`/`right`
pointers are indices into the heap (`none` = Go `nil`), `val` the stored key. -/
structure HNode where
  left : Option Nat
  right : Option Nat
  val : Int
deriving DecidableEq, Repr

/-- Heap-level `Insert`: `h` is the heap (nodes at list indices), `it` the
receiver pointer, `v` the value; the result is the updated heap together with
the returned pointer.  A `nil` receiver appends one fresh node and returns its
index; otherwise the recursion mutates the `left`/`right` field of node `it`
in place (`List.set`) and returns `it` itself.  `fuel` bounds the recursion
depth; a dangling pointer or exhausted fuel yields `none`. -/
def insertH : Nat → List HNode → Option Nat → Int → Option (List HNode × Nat)
  | 0, _, _, _ => none
  | _ + 1, h, none, v => some (h ++ [⟨none, none, v⟩], h.length)
  | f + 1, h, some i, v =>
    (h[i]?).bind fun nd =>
      if v < nd.val then
        (insertH f h nd.left v).bind fun p =>
          (p.1[i]?).map fun nd₁ => (p.1.set i { nd₁ with left := some p.2 }, i)
      else if nd.val < v then
        (insertH f h nd.right v).bind fun p =>
          (p.1[i]?).map fun nd₁ => (p.1.set i { nd₁ with right := some p.2 }, i)
      else
        some (h, i)

namespace IntTree

theorem contains_insert (t : IntTree) (v x : Int) :
    contains (insert t v) x = true ↔ x = v ∨ contains t x = true := by
  induction t with
  | nil =>
    simp only [insert, contains]
    split_ifs with h1 h2
    · simp
      omega
    · simp
      omega
    · simp
      omega
  | node l y r ihl ihr =>
    simp only [insert]
    split_ifs with hv1 hv2
    · simp only [contains]
      split_ifs with hx1 hx2
      · exact ihl
      · rw [or_iff_right (show x ≠ v by omega)]
      · simp
    · simp only [contains]
      split_ifs with hx1 hx2
      · rw [or_iff_right (show x ≠ v by omega)]
      · exact ihr
      · simp
    · simp only [contains]
      split_ifs with hx1 hx2
      · rw [or_iff_right (show x ≠ v by omega)]
      · rw [or_iff_right (show x ≠ v by omega)]
      · simp

theorem contains_insertAll (t : IntTree) (vs : List Int) (x : Int) :
    contains (insertAll t vs) x = true ↔ x ∈ vs ∨ contains t x = true := by
  induction vs generalizing t with
  | nil => simp [insertAll]
  | cons v vs ih =>
    show contains (insertAll (insert t v) vs) x = true ↔ _
    rw [ih, contains_insert]
    simp only [List.mem_cons]
    tauto

theorem mem_inorder_insert (t : IntTree) (v y : Int) :
    y ∈ inorder (insert t v) ↔ y = v ∨ y ∈ inorder t := by
  induction t with
  | nil => simp [insert, inorder]
  | node l x r ihl ihr =>
    simp only [insert]
    split_ifs with hv1 hv2
    · simp only [inorder, List.mem_append, List.mem_cons, ihl]
      tauto
    · simp only [inorder, List.mem_append, List.mem_cons, ihr]
      tauto
    · have hvx : v = x := by omega
      subst hvx
      simp only [inorder, List.mem_append, List.mem_cons]
      tauto

theorem bst_insert (t : IntTree) (v : Int) (h : BST t) : BST (insert t v) := by
  induction h with
  | nil =>
    exact BST.node (by simp [inorder]) (by simp [inorder]) BST.nil BST.nil
  | @node l r x hl hr bl br ihl ihr =>
    simp only [insert]
    split_ifs with hv1 hv2
    · refine BST.node ?_ hr ihl br
      intro y hy
      rcases (mem_inorder_insert l v y).mp hy with rfl | hy
      · exact hv1
      · exact hl y hy
    · refine BST.node hl ?_ bl ihr
      intro y hy
      rcases (mem_inorder_insert r v y).mp hy with rfl | hy
      · exact hv2
      · exact hr y hy
    · exact BST.node hl hr bl br

theorem bst_sorted (t : IntTree) (h : BST t) : List.Sorted (· < ·) (inorder t) := by
  induction h with
  | nil => simp [inorder]
  | @node l r x hl hr bl br ihl ihr =>
    simp only [inorder]
    exact List.pairwise_append.mpr ⟨ihl, List.pairwise_cons.mpr ⟨hr, ihr⟩,
      fun a ha b hb => by
        rcases List.mem_cons.mp hb with rfl | hb
        · exact hl a ha
        · exact lt_trans (hl a ha) (hr b hb)⟩

theorem bst_insertAll (t : IntTree) (vs : List Int) (h : BST t) :
    BST (insertAll t vs) := by
  induction vs generalizing t with
  | nil => exact h
  | cons v vs ih => exact ih (insert t v) (bst_insert t v h)

theorem insert_eq_of_contains (t : IntTree) (v : Int)
    (h : contains t v = true) : insert t v = t := by
  induction t with
  | nil => simp [contains] at h
  | node l x r ihl ihr =>
    simp only [contains] at h
    simp only [insert]
    split_ifs with hv1 hv2
    · rw [if_pos hv1] at h
      rw [ihl h]
    · rw [if_neg (by omega : ¬v < x), if_pos hv2] at h
      rw [ihr h]
    · rfl

theorem size_insert (t : IntTree) (v : Int) :
    size (insert t v) = size t + (if contains t v then 0 else 1) := by
  induction t with
  | nil => simp [insert, contains, size]
  | node l x r ihl ihr =>
    simp only [insert, contains]
    by_cases hv1 : v < x
    · simp only [if_pos hv1, size, ihl]
      by_cases h : contains l v = true
      · simp [h]
      · simp [h]
        omega
    · by_cases hv2 : x < v
      · simp only [if_neg hv1, if_pos hv2, size, ihr]
        by_cases h : contains r v = true
        · simp [h]
        · simp [h]
          omega
      · simp [if_neg hv1, if_neg hv2, size]

theorem containsFuel_spec (t : IntTree) (v : Int) :
    ∀ f : Nat, height t < f → containsFuel f t v = some (contains t v) := by
  induction t with
  | nil =>
    intro f hf
    match f, hf with
    | g + 1, _ => rfl
  | node l x r ihl ihr =>
    intro f hf
    match f, hf with
    | g + 1, hf =>
      have hl : height l < g := by simp only [height] at hf; omega
      have hr : height r < g := by simp only [height] at hf; omega
      simp only [containsFuel, contains]
      split_ifs
      · exact ihl g hl
      · exact ihr g hr
      · rfl

theorem insertFuel_spec (t : IntTree) (v : Int) :
    ∀ f : Nat, height t < f → insertFuel f t v = some (insert t v) := by
  induction t with
  | nil =>
    intro f hf
    match f, hf with
    | g + 1, _ => rfl
  | node l x r ihl ihr =>
    intro f hf
    match f, hf with
    | g + 1, hf =>
      have hl : height l < g := by simp only [height] at hf; omega
      have hr : height r < g := by simp only [height] at hf; omega
      simp only [insertFuel, insert]
      split_ifs
      · rw [ihl g hl]
        rfl
      · rw [ihr g hr]
        rfl
      · rfl

end IntTree

theorem insertH_zero (hp : List HNode) (it : Option Nat) (v : Int) :
    insertH 0 hp it v = none := rfl

theorem insertH_none (f : Nat) (hp : List HNode) (v : Int) (hp' : List HNode)
    (j : Nat) (heq : insertH (f + 1) hp none v = some (hp', j)) :
    j = hp.length ∧ hp' = hp ++ [⟨none, none, v⟩] := by
  simp only [insertH, Option.some.injEq, Prod.mk.injEq] at heq
  exact ⟨heq.2.symm, heq.1.symm⟩

theorem insertH_some_root (f : Nat) (hp : List HNode) (i : Nat) (v : Int)
    (hp' : List HNode) (j : Nat)
    (heq : insertH f hp (some i) v = some (hp', j)) : j = i := by
  match f with
  | 0 => exact absurd heq (by simp [insertH])
  | g + 1 =>
    simp only [insertH] at heq
    cases hnd : hp[i]? with
    | none =>
      rw [hnd] at heq
      exact absurd heq (by simp)
    | some nd =>
      rw [hnd] at heq
      simp only [Option.some_bind] at heq
      split_ifs at heq
      · cases hrec : insertH g hp nd.left v with
        | none =>
          rw [hrec] at heq
          exact absurd heq (by simp)
        | some p =>
          rw [hrec] at heq
          simp only [Option.some_bind] at heq
          cases hnd₁ : p.1[i]? with
          | none =>
            rw [hnd₁] at heq
            exact absurd heq (by simp)
          | some nd₁ =>
            rw [hnd₁] at heq
            simp only [Option.map_some', Option.some.injEq, Prod.mk.injEq] at heq
            exact heq.2.symm
      · cases hrec : insertH g hp nd.right v with
        | none =>
          rw [hrec] at heq
          exact absurd heq (by simp)
        | some p =>
          rw [hrec] at heq
          simp only [Option.some_bind] at heq
          cases hnd₁ : p.1[i]? with
          | none =>
            rw [hnd₁] at heq
            exact absurd heq (by simp)
          | some nd₁ =>
            rw [hnd₁] at heq
            simp only [Option.map_some', Option.some.injEq, Prod.mk.injEq] at heq
            exact heq.2.symm
      · simp only [Option.some.injEq, Prod.mk.injEq] at heq
        exact heq.2.symm

theorem insertH_frame (f : Nat) (hp : List HNode) (it : Option Nat) (v : Int)
    (hp' : List HNode) (j : Nat) (heq : insertH f hp it v = some (hp', j)) :
    hp.length ≤ hp'.length ∧ hp'.length ≤ hp.length + 1 ∧
      ∀ k, k < hp.length → hp'[k]?.map HNode.val = hp[k]?.map HNode.val := by
  induction f generalizing hp it v hp' j with
  | zero => exact absurd heq (by simp [insertH])
  | succ g ih =>
    match it with
    | none =>
      obtain ⟨rfl, rfl⟩ := insertH_none g hp v hp' j heq
      refine ⟨by simp, by simp, ?_⟩
      intro k hk
      rw [List.getElem?_append_left hk]
    | some i =>
      simp only [insertH] at heq
      cases hnd : hp[i]? with
      | none =>
        rw [hnd] at heq
        exact absurd heq (by simp)
      | some nd =>
        rw [hnd] at heq
        simp only [Option.some_bind] at heq
        split_ifs at heq
        · cases hrec : insertH g hp nd.left v with
          | none =>
            rw [hrec] at heq
            exact absurd heq (by simp)
          | some p =>
            obtain ⟨h₁, j₁⟩ := p
            rw [hrec] at heq
            simp only [Option.some_bind] at heq
            cases hnd₁ : h₁[i]? with
            | none =>
              rw [hnd₁] at heq
              exact absurd heq (by simp)
            | some nd₁ =>
              rw [hnd₁] at heq
              simp only [Option.map_some', Option.some.injEq, Prod.mk.injEq] at heq
              obtain ⟨heq1, heq2⟩ := heq
              subst heq1
              obtain ⟨len1, len2, vals⟩ := ih hp nd.left v h₁ j₁ hrec
              have hi₁ : i < h₁.length := by
                by_contra hcon
                rw [List.getElem?_eq_none (by omega)] at hnd₁
                exact absurd hnd₁ (by simp)
              refine ⟨by rw [List.length_set]; omega, by rw [List.length_set]; omega, ?_⟩
              intro k hk
              by_cases hki : k = i
              · subst hki
                rw [List.getElem?_set_self hi₁]
                have h2 := vals k hk
                rw [hnd₁] at h2
                rw [← h2]
                rfl
              · rw [List.getElem?_set_ne (by omega : i ≠ k)]
                exact vals k hk
        · cases hrec : insertH g hp nd.right v with
          | none =>
            rw [hrec] at heq
            exact absurd heq (by simp)
          | some p =>
            obtain ⟨h₁, j₁⟩ := p
            rw [hrec] at heq
            simp only [Option.some_bind] at heq
            cases hnd₁ : h₁[i]? with
            | none =>
              rw [hnd₁] at heq
              exact absurd heq (by simp)
            | some nd₁ =>
              rw [hnd₁] at heq
              simp only [Option.map_some', Option.some.injEq, Prod.mk.injEq] at heq
              obtain ⟨heq1, heq2⟩ := heq
              subst heq1
              obtain ⟨len1, len2, vals⟩ := ih hp nd.right v h₁ j₁ hrec
              have hi₁ : i < h₁.length := by
                by_contra hcon
                rw [List.getElem?_eq_none (by omega)] at hnd₁
                exact absurd hnd₁ (by simp)
              refine ⟨by rw [List.length_set]; omega, by rw [List.length_set]; omega, ?_⟩
              intro k hk
              by_cases hki : k = i
              · subst hki
                rw [List.getElem?_set_self hi₁]
                have h2 := vals k hk
                rw [hnd₁] at h2
                rw [← h2]
                rfl
              · rw [List.getElem?_set_ne (by omega : i ≠ k)]
                exact vals k hk
        · simp only [Option.some.injEq, Prod.mk.injEq] at heq
          obtain ⟨heq1, heq2⟩ := heq
          subst heq1
          exact ⟨le_refl _, by omega, fun k _ => rfl⟩

/-- C1: for every sequence of values `vs` inserted into an initially empty
tree and every value `x`, `Contains` returns true exactly when `x` equals one
of the inserted values. -/
theorem C1_membership_correct (vs : List Int) (x : Int) :
    IntTree.contains (IntTree.insertAll IntTree.nil vs) x = true ↔ x ∈ vs := by
  rw [IntTree.contains_insertAll]
  simp [IntTree.contains]

/-- C2: every tree reachable from the empty tree by `Insert` operations
satisfies the binary-search-tree ordering invariant at every node, and its
in-order traversal is strictly ascending with no duplicates. -/
theorem C2_bst_invariant (vs : List Int) :
    IntTree.BST (IntTree.insertAll IntTree.nil vs) ∧
    List.Sorted (· < ·) (IntTree.inorder (IntTree.insertAll IntTree.nil vs)) ∧
    (IntTree.inorder (IntTree.insertAll IntTree.nil vs)).Nodup := by
  have hb := IntTree.bst_insertAll IntTree.nil vs IntTree.BST.nil
  have hs := IntTree.bst_sorted _ hb
  exact ⟨hb, hs, hs.nodup⟩

/-- C3: inserting a value already present in a tree is a no-op returning the
tree unchanged; in particular inserting the same value twice gives exactly the
same tree (hence the same `Contains` results) as inserting it once. -/
theorem C3_insert_idempotent (t : IntTree) (v : Int) :
    (IntTree.contains t v = true → IntTree.insert t v = t) ∧
    IntTree.insert (IntTree.insert t v) v = IntTree.insert t v := by
  refine ⟨IntTree.insert_eq_of_contains t v, ?_⟩
  apply IntTree.insert_eq_of_contains
  rw [IntTree.contains_insert]
  exact Or.inl rfl

/-- Witness for C3 at `t = node nil 5 nil`, `v = 5`. -/
theorem C3_insert_idempotent_witness :
    IntTree.contains (IntTree.node IntTree.nil 5 IntTree.nil) 5 = true ∧
    IntTree.insert (IntTree.node IntTree.nil 5 IntTree.nil) 5 =
      IntTree.node IntTree.nil 5 IntTree.nil :=
  ⟨by decide, (C3_insert_idempotent (IntTree.node IntTree.nil 5 IntTree.nil) 5).1 (by decide)⟩

/-- C4: `Contains` on the empty tree is false for every value, and `Insert`
into the empty tree builds a single node holding that value with two empty
children. -/
theorem C4_empty_base (v : Int) :
    IntTree.contains IntTree.nil v = false ∧
    IntTree.insert IntTree.nil v = IntTree.node IntTree.nil v IntTree.nil :=
  ⟨rfl, rfl⟩

/-- C5: `Insert` allocates exactly one node when the value is absent and none
when it is present (pure size count), and in the heap model it never changes
the `val` field of any pre-existing node and grows the heap by at most one
cell. -/
theorem C5_insert_frame :
    (∀ (t : IntTree) (v : Int),
        IntTree.size (IntTree.insert t v) =
          IntTree.size t + (if IntTree.contains t v then 0 else 1)) ∧
    (∀ (f : Nat) (hp : List HNode) (it : Option Nat) (v : Int)
        (hp' : List HNode) (j : Nat), insertH f hp it v = some (hp', j) →
        hp.length ≤ hp'.length ∧ hp'.length ≤ hp.length + 1 ∧
        ∀ k, k < hp.length → hp'[k]?.map HNode.val = hp[k]?.map HNode.val) :=
  ⟨IntTree.size_insert, insertH_frame⟩

/-- Witness for C5: inserting 3 under the single node 5 appends one cell and
leaves the value at index 0 unchanged. -/
theorem C5_insert_frame_witness :
    insertH 2 [HNode.mk none none 5] (some 0) 3 =
      some ([HNode.mk (some 1) none 5, HNode.mk none none 3], 0) ∧
    ([HNode.mk (some 1) none 5, HNode.mk none none 3] : List HNode)[0]?.map HNode.val =
      ([HNode.mk none none 5] : List HNode)[0]?.map HNode.val :=
  ⟨by decide,
    (C5_insert_frame.2 2 [HNode.mk none none 5] (some 0) 3
      [HNode.mk (some 1) none 5, HNode.mk none none 3] 0 (by decide)).2.2 0 (by decide)⟩

/-- C6: in the heap model, inserting at a non-nil receiver returns that very
node as root, while inserting at a nil receiver returns a freshly allocated
node appended to the heap (the identity changes from empty to one node). -/
theorem C6_root_identity :
    (∀ (f : Nat) (hp : List HNode) (i : Nat) (v : Int) (hp' : List HNode) (j : Nat),
        insertH f hp (some i) v = some (hp', j) → j = i) ∧
    (∀ (f : Nat) (hp : List HNode) (v : Int) (hp' : List HNode) (j : Nat),
        insertH (f + 1) hp none v = some (hp', j) →
        j = hp.length ∧ hp' = hp ++ [⟨none, none, v⟩]) :=
  ⟨insertH_some_root, insertH_none⟩

/-- Witness for C6: a non-nil insertion keeps root index 0; a nil insertion
into the empty heap returns the fresh index 0 and the one-cell heap. -/
theorem C6_root_identity_witness :
    insertH 2 [HNode.mk none none 5] (some 0) 3 =
      some ([HNode.mk (some 1) none 5, HNode.mk none none 3], 0) ∧ (0 : Nat) = 0 ∧
    ((0 : Nat) = ([] : List HNode).length ∧
      [HNode.mk none none 7] = ([] : List HNode) ++ [⟨none, none, 7⟩]) :=
  ⟨by decide,
    C6_root_identity.1 2 [HNode.mk none none 5] 0 3
      [HNode.mk (some 1) none 5, HNode.mk none none 3] 0 (by decide),
    C6_root_identity.2 0 [] 7 [HNode.mk none none 7] 0 (by decide)⟩

/-- C7: `Insert` and `Contains` are total: on every finite tree the recursion
terminates within any step budget exceeding the tree height, returning the
value of the total functions. -/
theorem C7_totality (t : IntTree) (v : Int) (f : Nat) (hf : IntTree.height t < f) :
    IntTree.containsFuel f t v = some (IntTree.contains t v) ∧
    IntTree.insertFuel f t v = some (IntTree.insert t v) :=
  ⟨IntTree.containsFuel_spec t v f hf, IntTree.insertFuel_spec t v f hf⟩

/-- Witness for C7 at the one-node tree of 5, value 3, budget 2. -/
theorem C7_totality_witness :
    IntTree.height (IntTree.node IntTree.nil 5 IntTree.nil) < 2 ∧
    IntTree.containsFuel 2 (IntTree.node IntTree.nil 5 IntTree.nil) 3 =
      some (IntTree.contains (IntTree.node IntTree.nil 5 IntTree.nil) 3) :=
  ⟨by decide, (C7_totality (IntTree.node IntTree.nil 5 IntTree.nil) 3 2 (by decide)).1⟩

/-- C8: after inserting [5, 3, 10, 2] into an empty tree, `Contains` is true
for 2, 3, 5 and 10 and false for 12 and 4. -/
theorem C8_demo_scenario :
    IntTree.contains (IntTree.insertAll IntTree.nil [5, 3, 10, 2]) 2 = true ∧
    IntTree.contains (IntTree.insertAll IntTree.nil [5, 3, 10, 2]) 3 = true ∧
    IntTree.contains (IntTree.insertAll IntTree.nil [5, 3, 10, 2]) 5 = true ∧
    IntTree.contains (IntTree.insertAll IntTree.nil [5, 3, 10, 2]) 10 = true ∧
    IntTree.contains (IntTree.insertAll IntTree.nil [5, 3, 10, 2]) 12 = false ∧
    IntTree.contains (IntTree.insertAll IntTree.nil [5, 3, 10, 2]) 4 = false := by
  decide

/-- C9: inserting [1,2,3,4,5] in ascending order yields the degenerate
right-leaning chain of height 5, whose in-order traversal is [1,2,3,4,5] and
whose membership is exactly {1,...,5}. -/
theorem C9_ascending_chain :
    IntTree.insertAll IntTree.nil [1, 2, 3, 4, 5] =
      IntTree.node IntTree.nil 1 (IntTree.node IntTree.nil 2 (IntTree.node IntTree.nil 3
        (IntTree.node IntTree.nil 4 (IntTree.node IntTree.nil 5 IntTree.nil)))) ∧
    IntTree.isRightChain (IntTree.insertAll IntTree.nil [1, 2, 3, 4, 5]) = true ∧
    IntTree.height (IntTree.insertAll IntTree.nil [1, 2, 3, 4, 5]) = 5 ∧
    IntTree.inorder (IntTree.insertAll IntTree.nil [1, 2, 3, 4, 5]) = [1, 2, 3, 4, 5] ∧
    ∀ x : Int, (IntTree.contains (IntTree.insertAll IntTree.nil [1, 2, 3, 4, 5]) x = true ↔
      x ∈ ([1, 2, 3, 4, 5] : List Int)) := by
  refine ⟨by decide, by decide, by decide, by decide, ?_⟩
  intro x
  rw [IntTree.contains_insertAll]
  simp [IntTree.contains]

/-- C10: the demo's zero-valued root node is not the empty tree: it contains
the key 0 although 0 was never inserted, a tree seeded with it holds 0 plus
every inserted value, any node-rooted tree contains its root value, and only
`nil` has no members. -/
theorem C10_zero_root_not_empty :
    IntTree.contains (IntTree.node IntTree.nil 0 IntTree.nil) 0 = true ∧
    (∀ (vs : List Int) (x : Int),
      IntTree.contains (IntTree.insertAll (IntTree.node IntTree.nil 0 IntTree.nil) vs) x = true ↔
        x = 0 ∨ x ∈ vs) ∧
    (∀ (l r : IntTree) (v : Int), IntTree.contains (IntTree.node l v r) v = true) ∧
    (∀ x : Int, IntTree.contains IntTree.nil x = false) := by
  refine ⟨by decide, ?_, ?_, fun x => rfl⟩
  · intro vs x
    rw [IntTree.contains_insertAll]
    have hzero : IntTree.contains (IntTree.node IntTree.nil 0 IntTree.nil) x = true ↔ x = 0 := by
      simp only [IntTree.contains]
      split_ifs with h1 h2
      · simp
        omega
      · simp
        omega
      · simp
        omega
    rw [hzero]
    tauto
  · intro l r v
    simp [IntTree.contains]
